import Mathlib

/-!
Verification development for the onboarding-assistant-cli repository.

The repository is a batch converter that copies Vue components and C#
Entity-Framework model classes into plain-text context artifacts.  The
definitions below are a shallow embedding of the code in
src/lib/frontend-context.js and src/lib/backend-context.js, together with
the surrounding CLI error handling in src/bin/cli.js.

Filesystem trees are modelled as finite labelled trees; file paths are
lists of name segments; machine strings are Lean strings, and every
JavaScript string operation used by the code (substring search, suffix
stripping, the concrete regular expressions, case mapping) is embedded as
an executable function over lists of characters.
-/

/-- The single-quote character (codepoint 39). -/
def squote : Char := Char.ofNat 39

/-- The double-quote character (codepoint 34). -/
def dquote : Char := Char.ofNat 34

/-- The backslash character (codepoint 92). -/
def bslash : Char := Char.ofNat 92

/-- Does the needle occur at the head of the haystack (case sensitive)?
Embeds the anchored step of JavaScript String.includes. -/
def containsSubstrAux (needle : List Char) : List Char → Bool
  | [] => needle.isPrefixOf []
  | c :: cs => needle.isPrefixOf (c :: cs) || containsSubstrAux needle cs

/-- JavaScript content.includes(sub): case-sensitive substring test. -/
def containsSubstr (s sub : String) : Bool :=
  containsSubstrAux sub.toList s.toList

/-- JavaScript name.endsWith(sfx): case-sensitive suffix test. -/
def nameEndsWith (s sfx : String) : Bool :=
  sfx.toList.isSuffixOf s.toList

/-- Remove a trailing occurrence of sfx from l when present; embeds the
JavaScript replace of an end-anchored literal pattern with the empty
string. -/
def removeSuffixL (sfx l : List Char) : List Char :=
  if sfx.isSuffixOf l then l.take (l.length - sfx.length) else l

/-- A finite filesystem node: a file with its text content, or a
directory with a list of named entries. -/
inductive FS where
  | file (content : String) : FS
  | dir (entries : List (String × FS)) : FS

/-- The recursive file walker shared by findVueFiles and findCSharpFiles
(src/lib/frontend-context.js lines 16-31, src/lib/backend-context.js
lines 16-31): it iterates over the directory listing in order, recurses
into subdirectories, and pushes the joined path of every file whose name
ends with the target suffix onto the accumulator. -/
def findFilesSuffix (suffix : String) (entries : List (String × FS))
    (pre : List String) (acc : List (List String)) : List (List String) :=
  match entries with
  | [] => acc
  | (name, FS.file _) :: rest =>
      findFilesSuffix suffix rest pre
        (if nameEndsWith name suffix then acc ++ [pre ++ [name]] else acc)
  | (name, FS.dir sub) :: rest =>
      findFilesSuffix suffix rest pre (findFilesSuffix suffix sub (pre ++ [name]) acc)
termination_by sizeOf entries
decreasing_by
  all_goals simp_wf
  all_goals omega

/-- findVueFiles (src/lib/frontend-context.js lines 16-31): walker with
suffix .vue, started with an empty accumulator. -/
def findVueFiles (entries : List (String × FS)) : List (List String) :=
  findFilesSuffix ".vue" entries [] []

/-- findCSharpFiles (src/lib/backend-context.js lines 16-31): walker with
suffix .cs, started with an empty accumulator. -/
def findCSharpFiles (entries : List (String × FS)) : List (List String) :=
  findFilesSuffix ".cs" entries [] []

/-- Specification-level list of the matching files in traversal order:
the walker with the accumulator factored out. -/
def matchingFiles (suffix : String) (entries : List (String × FS))
    (pre : List String) : List (List String) :=
  match entries with
  | [] => []
  | (name, FS.file _) :: rest =>
      (if nameEndsWith name suffix then [pre ++ [name]] else []) ++
        matchingFiles suffix rest pre
  | (name, FS.dir sub) :: rest =>
      matchingFiles suffix sub (pre ++ [name]) ++ matchingFiles suffix rest pre
termination_by sizeOf entries
decreasing_by
  all_goals simp_wf
  all_goals omega

/-- A path is a matching reachable file: it names a file entry reachable
by recursive traversal whose name ends with the suffix. -/
inductive IsMatchingFile (suffix : String) :
    List (String × FS) → List String → List String → Prop where
  | here (l : List (String × FS)) (pre : List String) (name content) :
      nameEndsWith name suffix = true → (name, FS.file content) ∈ l →
      IsMatchingFile suffix l pre (pre ++ [name])
  | inside (l : List (String × FS)) (pre : List String) (name sub q) :
      (name, FS.dir sub) ∈ l → IsMatchingFile suffix sub (pre ++ [name]) q →
      IsMatchingFile suffix l pre q

/-- Well-formed directory tree: sibling entry names are pairwise distinct
at every level, as in a real filesystem. -/
def wfEntries (entries : List (String × FS)) : Bool :=
  match entries with
  | [] => true
  | (name, FS.file _) :: rest =>
      rest.all (fun e => e.1 != name) && wfEntries rest
  | (name, FS.dir sub) :: rest =>
      rest.all (fun e => e.1 != name) && wfEntries sub && wfEntries rest
termination_by sizeOf entries
decreasing_by
  all_goals simp_wf
  all_goals omega

/-- Look a file up by its segment path, as the filesystem would resolve
the joined path produced by the walker. -/
def readFile (entries : List (String × FS)) : List String → Option String
  | [] => none
  | [name] =>
      match entries.find? (fun e => e.1 == name) with
      | some (_, FS.file c) => some c
      | _ => none
  | name :: rest =>
      match entries.find? (fun e => e.1 == name) with
      | some (_, FS.dir sub) => readFile sub rest
      | _ => none

/-- Last slash-separated segment of a path, as Node path.basename. -/
def lastSegment (l : List Char) : List Char :=
  l.foldl (fun acc c => if c == '/' then [] else acc ++ [c]) []

/-- Node path.basename(p, ext): the last segment, with one trailing
occurrence of ext removed unless the segment is exactly ext. -/
def basenameExt (p ext : String) : String :=
  if ext.toList ≠ [] ∧ ext.toList ≠ lastSegment p.toList ∧
      ext.toList.isSuffixOf (lastSegment p.toList) = true then
    String.mk
      ((lastSegment p.toList).take ((lastSegment p.toList).length - ext.toList.length))
  else String.mk (lastSegment p.toList)

/-- Case-insensitive test that pat occurs at the head of the text, used
to embed the regular expressions that carry the i flag. -/
def ciLeads : List Char → List Char → Bool
  | [], _ => true
  | _ :: _, [] => false
  | p :: ps, c :: cs => (p.toLower == c.toLower) && ciLeads ps cs

namespace FrontendContext

/-- Scan forward over characters other than a closing brace for a
case-insensitive occurrence of the needle; return the text after it.
Embeds a fragment of form: bracket-complement star, then the needle. -/
def scanNonBrace (needle : List Char) : List Char → Option (List Char)
  | [] => if ciLeads needle [] then some [] else none
  | c :: cs =>
      if ciLeads needle (c :: cs) then some ((c :: cs).drop needle.length)
      else if c == Char.ofNat 125 then none
      else scanNonBrace needle cs

/-- Scan forward over characters other than a closing brace for a
case-insensitive occurrence of either alternative. -/
def seekAltNonBrace (n1 n2 : List Char) : List Char → Bool
  | [] => ciLeads n1 [] || ciLeads n2 []
  | c :: cs =>
      if ciLeads n1 (c :: cs) || ciLeads n2 (c :: cs) then true
      else if c == Char.ofNat 125 then false
      else seekAltNonBrace n1 n2 cs

/-- Scan forward over characters other than a quote for a
case-insensitive occurrence of the component name. -/
def seekNameNonQuote (nm : List Char) : List Char → Bool
  | [] => ciLeads nm []
  | c :: cs =>
      if ciLeads nm (c :: cs) then true
      else if c == squote || c == dquote then false
      else seekNameNonQuote nm cs

/-- One position of the first router regular expression of
src/lib/frontend-context.js lines 67-70: literal path colon, optional
whitespace, a quote, a non-empty capture of non-quote characters, a
quote, then within the same brace-free region the literal component
marker and one of the two component references.  Returns the capture. -/
def tryRouteAt (n1 n2 : List Char) (l : List Char) : Option (List Char) :=
  if ciLeads "path:".toList l then
    match (l.drop 5).dropWhile Char.isWhitespace with
    | [] => none
    | q :: rest =>
        if q == squote || q == dquote then
          let cap := rest.takeWhile (fun c => !(c == squote || c == dquote))
          if cap.isEmpty then none
          else
            match rest.drop cap.length with
            | [] => none
            | q2 :: r3 =>
                if q2 == squote || q2 == dquote then
                  match scanNonBrace "component:".toList r3 with
                  | some r4 => if seekAltNonBrace n1 n2 r4 then some cap else none
                  | none => none
                else none
        else none
  else none

/-- Leftmost match of the first router regular expression. -/
def findRouteMatch (n1 n2 : List Char) : List Char → Option (List Char)
  | [] => none
  | c :: cs =>
      match tryRouteAt n1 n2 (c :: cs) with
      | some cap => some cap
      | none => findRouteMatch n1 n2 cs

/-- A dot, an optional second dot, then a slash: the relative-import
lead-in of the lazy-load regular expression. -/
def dotSlash (l : List Char) : Option (List Char) :=
  match l with
  | '.' :: '.' :: '/' :: rest => some rest
  | '.' :: '/' :: rest => some rest
  | _ => none

/-- One position of the lazy-load regular expression of
src/lib/frontend-context.js lines 78-81: as tryRouteAt up to the closing
quote, then the component marker, an import call opening with a quote, a
relative lead-in, and the component name within the quote-free region. -/
def tryLazyAt (nm : List Char) (l : List Char) : Option (List Char) :=
  if ciLeads "path:".toList l then
    match (l.drop 5).dropWhile Char.isWhitespace with
    | [] => none
    | q :: rest =>
        if q == squote || q == dquote then
          let cap := rest.takeWhile (fun c => !(c == squote || c == dquote))
          if cap.isEmpty then none
          else
            match rest.drop cap.length with
            | [] => none
            | q2 :: r3 =>
                if q2 == squote || q2 == dquote then
                  match scanNonBrace "component:".toList r3 with
                  | some r4 =>
                      match scanNonBrace "import(".toList r4 with
                      | some r5 =>
                          match r5 with
                          | [] => none
                          | q3 :: r6 =>
                              if q3 == squote || q3 == dquote then
                                match dotSlash r6 with
                                | some r7 =>
                                    if seekNameNonQuote nm r7 then some cap else none
                                | none => none
                              else none
                      | none => none
                  | none => none
                else none
        else none
  else none

/-- Leftmost match of the lazy-load regular expression. -/
def findLazyMatch (nm : List Char) : List Char → Option (List Char)
  | [] => none
  | c :: cs =>
      match tryLazyAt nm (c :: cs) with
      | some cap => some cap
      | none => findLazyMatch nm cs

/-- extractRouteFromRouter (src/lib/frontend-context.js lines 39-92).
The filesystem lookup of the six conventional router locations is
modelled by routerContent: none when no router file exists, some of the
file text otherwise.  relFilePath stands for the path of the Vue file
relative to the router file directory, separator-normalized and with the
extension removed, which the source computes with Node path functions. -/
def extractRouteFromRouter (routerContent : Option String) (relFilePath : String)
    (vueFilePath : String) : Option String :=
  match routerContent with
  | none => none
  | some content =>
      let componentName := basenameExt vueFilePath ".vue"
      match findRouteMatch componentName.toList relFilePath.toList content.toList with
      | some cap => some (String.mk cap)
      | none =>
          match findLazyMatch componentName.toList content.toList with
          | some cap => some (String.mk cap)
          | none => none

/-- Model of Node path.relative(sourcePath, vueFilePath) for the walker
situation in which the file lies underneath the root: the root prefix
and its separator are removed; otherwise the path is returned as is. -/
def relativeTo (root p : List Char) : List Char :=
  if root = [] then p
  else if root.getLast? = some '/' then
    (if root.isPrefixOf p then p.drop root.length else p)
  else if (root ++ ['/']).isPrefixOf p then p.drop (root.length + 1) else p

/-- The folder-structure regular expression of src/lib/frontend-context.js
line 107: scan for the leftmost case-insensitive occurrence of pages/,
views/ or screens/; return the text after it when found. -/
def findSeg : List Char → Option (List Char)
  | [] => none
  | c :: cs =>
      if ciLeads "pages/".toList (c :: cs) then some ((c :: cs).drop 6)
      else if ciLeads "views/".toList (c :: cs) then some ((c :: cs).drop 6)
      else if ciLeads "screens/".toList (c :: cs) then some ((c :: cs).drop 8)
      else findSeg cs

/-- Does one of the three folder keywords followed by a slash occur
anywhere in the path (case-insensitively)? -/
def hasSegKeyword (l : List Char) : Bool :=
  (findSeg l).isSome

/-- Lines 107-112: when the folder regular expression matches, the
relative path is replaced by its first capture, which extends from after
the matched keyword to the end of the line. -/
def stripPagesSegment (l : List Char) : List Char :=
  match findSeg l with
  | some rest => rest.takeWhile (fun c => !(c == '\n' || c == Char.ofNat 13))
  | none => l

/-- Fuel-bounded worker for convertParams.  Every step consumes at least
one character, so fuel equal to the length of the text is always enough;
the zero-fuel arm is unreachable at that fuel. -/
def convertParamsFuel : Nat → List Char → List Char
  | 0, l => l
  | _ + 1, [] => []
  | fuel + 1, c :: rest =>
      if c == '[' then
        let before := rest.takeWhile (fun x => x != ']')
        let after := rest.drop before.length
        if before.length > 0 ∧ after.length > 0 then
          ':' :: before ++ convertParamsFuel fuel (after.drop 1)
        else c :: convertParamsFuel fuel rest
      else c :: convertParamsFuel fuel rest

/-- Line 118: globally rewrite bracketed parameter segments to
colon-prefixed ones.  A bracket opens a match only when a closing bracket
follows with at least one character between; otherwise scanning resumes
at the next character. -/
def convertParams (l : List Char) : List Char :=
  convertParamsFuel l.length l

/-- Line 123: collapse every run of slashes to a single slash. -/
def collapseSlashes : List Char → List Char
  | [] => []
  | [c] => [c]
  | a :: b :: rest =>
      if a == '/' && b == '/' then collapseSlashes (b :: rest)
      else a :: collapseSlashes (b :: rest)

/-- inferRouteFromPath (src/lib/frontend-context.js lines 100-127): take
the path relative to the source root, strip the extension, normalize
separators, apply the folder regular expression, lower-case, remove a
trailing index segment, convert bracketed parameters, remove a trailing
home segment, prepend a slash, collapse slash runs, erase a bare slash,
and default to the root route when empty. -/
def inferRouteFromPath (sourcePath vueFilePath : String) : String :=
  let rel0 := relativeTo sourcePath.toList vueFilePath.toList
  let rel1 := removeSuffixL ".vue".toList rel0
  let rel2 := rel1.map (fun c => if c == bslash then '/' else c)
  let rel3 := stripPagesSegment rel2
  let r0 := rel3.map Char.toLower
  let r1 := removeSuffixL "/index".toList r0
  let r2 := convertParams r1
  let r3 := removeSuffixL "/home".toList r2
  let route1 := collapseSlashes ('/' :: r3)
  let route2 := if route1 = ['/'] then [] else route1
  if route2 = [] then "/" else String.mk route2

/-- getRouteForVueFile (src/lib/frontend-context.js lines 135-142): the
router lookup wins when it produces a truthy value; otherwise fall back
to path inference. -/
def getRouteForVueFile (routerContent : Option String) (relFilePath : String)
    (sourcePath vueFilePath : String) : String :=
  match extractRouteFromRouter routerContent relFilePath vueFilePath with
  | some r => if r.isEmpty then inferRouteFromPath sourcePath vueFilePath else r
  | none => inferRouteFromPath sourcePath vueFilePath

/-- Lines 155-159: the route converted to a filename base: leading slash
removed, slashes to hyphens, colons erased, lower-cased. -/
def kebabRoute (route : String) : List Char :=
  let r1 := match route.toList with
    | c :: cs => if c == '/' then cs else c :: cs
    | [] => []
  ((r1.map (fun c => if c == '/' then '-' else c)).filter (fun c => c != ':')).map
    Char.toLower

/-- generateOutputFilename (src/lib/frontend-context.js lines 150-165):
use the route-based base name when non-empty, otherwise the lower-cased
base name of the Vue file itself; append the fixed suffix. -/
def generateOutputFilename (vueFilePath route : String) : String :=
  String.mk
    (if (kebabRoute route).isEmpty then
      (basenameExt vueFilePath ".vue").toList.map Char.toLower
    else kebabRoute route) ++ ".vue.txt"

end FrontendContext

namespace BackendContext

/-- isLikelyEFModel (src/lib/backend-context.js lines 38-72).  The file
read is modelled by passing the file text as content.  The decision is
the disjunction written in the source, in which the conjunction of the
DbSet marker and the Context word binds tighter than the surrounding
disjunctions, followed by the directory-name disjunction. -/
def isLikelyEFModel (filePath content : String) : Bool :=
  let isModel :=
    containsSubstr content "[Key]" ||
    containsSubstr content "[Required]" ||
    containsSubstr content "[ForeignKey" ||
    containsSubstr content "[Table" ||
    containsSubstr content "[Column" ||
    (containsSubstr content "public virtual" &&
      (containsSubstr content "ICollection<" || containsSubstr content "List<")) ||
    containsSubstr content "public int Id \x7b get; set; \x7d" ||
    containsSubstr content "public Guid Id \x7b get; set; \x7d" ||
    (containsSubstr content "DbSet<" && containsSubstr content "Context")
  let isInModelsDir :=
    containsSubstr filePath "Models" ||
    containsSubstr filePath "Entities" ||
    containsSubstr filePath "Domain"
  isModel || isInModelsDir

/-- Is the character in the word class of the class-name regular
expression? -/
def isWordChar (c : Char) : Bool :=
  c.isAlphanum || c == '_'

/-- One position of the class-name regular expression of
src/lib/backend-context.js line 88: the public keyword, whitespace, the
class keyword, whitespace, then a captured non-empty word. -/
def classNameAt (l : List Char) : Option (List Char) :=
  if "public".toList.isPrefixOf l then
    let r1 := l.drop 6
    let ws1 := r1.takeWhile Char.isWhitespace
    if ws1.isEmpty then none
    else
      let r2 := r1.drop ws1.length
      if "class".toList.isPrefixOf r2 then
        let r3 := r2.drop 5
        let ws2 := r3.takeWhile Char.isWhitespace
        if ws2.isEmpty then none
        else
          let r4 := r3.drop ws2.length
          let w := r4.takeWhile isWordChar
          if w.isEmpty then none else some w
      else none
  else none

/-- Leftmost match of the class-name regular expression. -/
def findClassName : List Char → Option (List Char)
  | [] => none
  | c :: cs =>
      match classNameAt (c :: cs) with
      | some w => some w
      | none => findClassName cs

/-- extractModelName (src/lib/backend-context.js lines 79-97): the
captured class name when the regular expression matches, otherwise the
base name of the file without its extension. -/
def extractModelName (filePath content : String) : String :=
  match findClassName content.toList with
  | some w => String.mk w
  | none => basenameExt filePath ".cs"

/-- Insert a hyphen at every boundary between a lower-case letter and an
upper-case letter, as the camel-case regular expression of line 108. -/
def kebabAux : List Char → List Char
  | [] => []
  | [c] => [c]
  | a :: b :: rest =>
      if a.isLower && b.isUpper then a :: '-' :: kebabAux (b :: rest)
      else a :: kebabAux (b :: rest)

/-- generateOutputFilename (src/lib/backend-context.js lines 105-112):
the model name in kebab case, lower-cased, with the fixed suffix.  The
file path argument is unused by the source. -/
def generateOutputFilename (filePath modelName : String) : String :=
  String.mk ((kebabAux modelName.toList).map Char.toLower) ++ ".cs.txt"

end BackendContext

/-- Overwrite one output file in the output-directory state. -/
def updateState (σ : String → Option String) (w : String × String) :
    String → Option String :=
  fun k => if k = w.1 then some w.2 else σ k

/-- Apply the write list of a run to the output-directory state in order,
each write overwriting any file of the same name. -/
def writeAll (ws : List (String × String)) (σ : String → Option String) :
    String → Option String :=
  ws.foldl updateState σ

/-- The value of the last write to a given file name in a write list. -/
def lookupLast (ws : List (String × String)) (k : String) : Option String :=
  match ws with
  | [] => none
  | w :: rest =>
      match lookupLast rest k with
      | some v => some v
      | none => if k = w.1 then some w.2 else none

namespace FrontendContext

/-- The header block written by generateVueContext
(src/lib/frontend-context.js line 204). -/
def vueHeaderFor (rel route : String) : String :=
  "// FILE: " ++ rel ++ "\n// ROUTE: " ++ route ++ "\n\n"

/-- The full artifact text written for one Vue file (line 207): header
followed by the file content. -/
def vueArtifact (rel route content : String) : String :=
  vueHeaderFor rel route ++ content

/-- The processing of one Vue file inside generateVueContext
(src/lib/frontend-context.js lines 189-208): resolve the route, build
the output name, read the file, emit header plus content.  relToRouter
stands for the Node relative-path computation against the router file
directory that feeds the router regular expression. -/
def processVueFile (routerContent : Option String) (relToRouter : String → String)
    (root : String) (t : List (String × FS)) (p : List String) : String × String :=
  let relRaw := String.intercalate "/" p
  let rel := String.mk (relRaw.toList.map (fun c => if c == bslash then '/' else c))
  let vueFile := root ++ "/" ++ relRaw
  let route := getRouteForVueFile routerContent (relToRouter relRaw) root vueFile
  (generateOutputFilename vueFile route, vueArtifact rel route ((readFile t p).getD ""))

/-- The write list produced by one run of generateVueContext over the
source tree. -/
def vueWrites (routerContent : Option String) (relToRouter : String → String)
    (root : String) (t : List (String × FS)) : List (String × String) :=
  (findVueFiles t).map (processVueFile routerContent relToRouter root t)

/-- generateVueContext (src/lib/frontend-context.js lines 173-211): fail
when the source path does not exist, before any traversal; otherwise
apply every write to the output state and report the number of files. -/
def generateVueContext (source : Option (List (String × FS)))
    (routerContent : Option String) (relToRouter : String → String) (root : String)
    (σ : String → Option String) : Except String ((String → Option String) × Nat) :=
  match source with
  | none => Except.error ("Source path does not exist: " ++ root)
  | some t =>
      Except.ok (writeAll (vueWrites routerContent relToRouter root t) σ,
        (findVueFiles t).length)

/-- The generate-frontend-context CLI action (src/bin/cli.js lines
350-371): exit code 1 and unchanged output state on error, exit code 0
and the updated state on success. -/
def cliGenerateFrontendContext (source : Option (List (String × FS)))
    (routerContent : Option String) (relToRouter : String → String) (root : String)
    (σ : String → Option String) : Nat × (String → Option String) :=
  match generateVueContext source routerContent relToRouter root σ with
  | Except.error _ => (1, σ)
  | Except.ok (σ2, _) => (0, σ2)

end FrontendContext

namespace BackendContext

/-- The header block written by generateEFModelContext
(src/lib/backend-context.js line 154). -/
def modelHeaderFor (rel modelName : String) : String :=
  "// FILE: " ++ rel ++ "\n// MODEL: " ++ modelName ++ " (Entity Framework)\n\n"

/-- The full artifact text written for one model file (line 157). -/
def modelArtifact (rel modelName content : String) : String :=
  modelHeaderFor rel modelName ++ content

/-- The processing of one model file inside generateEFModelContext
(src/lib/backend-context.js lines 139-158). -/
def processModelFile (root : String) (t : List (String × FS)) (p : List String) :
    String × String :=
  let relRaw := String.intercalate "/" p
  let rel := String.mk (relRaw.toList.map (fun c => if c == bslash then '/' else c))
  let csFile := root ++ "/" ++ relRaw
  let content := (readFile t p).getD ""
  let modelName := extractModelName csFile content
  (generateOutputFilename csFile modelName, modelArtifact rel modelName content)

/-- Lines 133-136: the C# files kept by the classifier. -/
def modelFilesOf (root : String) (t : List (String × FS)) : List (List String) :=
  (findCSharpFiles t).filter
    (fun p => isLikelyEFModel (root ++ "/" ++ String.intercalate "/" p)
      ((readFile t p).getD ""))

/-- The write list produced by one run of generateEFModelContext. -/
def modelWrites (root : String) (t : List (String × FS)) : List (String × String) :=
  (modelFilesOf root t).map (processModelFile root t)

/-- generateEFModelContext (src/lib/backend-context.js lines 120-161). -/
def generateEFModelContext (source : Option (List (String × FS))) (root : String)
    (σ : String → Option String) : Except String ((String → Option String) × Nat) :=
  match source with
  | none => Except.error ("Models path does not exist: " ++ root)
  | some t =>
      Except.ok (writeAll (modelWrites root t) σ, (modelFilesOf root t).length)

/-- The generate-backend-context CLI action (src/bin/cli.js lines
407-428): exit code 1 and unchanged output state on error, exit code 0
and the updated state on success. -/
def cliGenerateBackendContext (source : Option (List (String × FS))) (root : String)
    (σ : String → Option String) : Nat × (String → Option String) :=
  match generateEFModelContext source root σ with
  | Except.error _ => (1, σ)
  | Except.ok (σ2, _) => (0, σ2)

end BackendContext

/-- Split a character list at newline characters; the result always has
one more entry than the number of newlines. -/
def splitLines : List Char → List (List Char)
  | [] => [[]]
  | c :: rest =>
      if c = '\n' then [] :: splitLines rest
      else
        match splitLines rest with
        | [] => [[c]]
        | h :: t => (c :: h) :: t

/-- A router file text containing a dashboard route entry, used as the
concrete input of claim C5. -/
def dashboardRouter : String :=
  "const routes = [\x7b path: \x27/dashboard\x27, component: Dashboard \x7d]"

/-- A two-file sample tree used to witness claim C1. -/
def c1SampleTree : List (String × FS) :=
  [("App.vue", FS.file "<template>"), ("User.cs", FS.file "public class User [Key]")]

/-- A nested sample tree used to witness claim C2. -/
def c2SampleTree : List (String × FS) :=
  [("pages", FS.dir [("Home.vue", FS.file "a"), ("Api.cs", FS.file "b")]),
   ("App.vue", FS.file "c")]

theorem ciLeads_length (p : List Char) : ∀ l, ciLeads p l = true → p.length ≤ l.length := by
  induction p with
  | nil => intro l _; simp
  | cons a ps ih =>
      intro l h
      cases l with
      | nil => simp [ciLeads] at h
      | cons c cs =>
          simp only [ciLeads, Bool.and_eq_true] at h
          have := ih cs h.2
          simp only [List.length_cons]
          omega

theorem findSeg_length (l rest : List Char)
    (h : FrontendContext.findSeg l = some rest) : rest.length + 6 ≤ l.length := by
  induction l with
  | nil => simp [FrontendContext.findSeg] at h
  | cons c cs ih =>
      rw [FrontendContext.findSeg] at h
      have e1 : ("pages/".toList).length = 6 := by decide
      have e2 : ("views/".toList).length = 6 := by decide
      have e3 : ("screens/".toList).length = 8 := by decide
      by_cases h1 : ciLeads "pages/".toList (c :: cs) = true
      · rw [if_pos h1] at h
        have hl := ciLeads_length _ _ h1
        cases h
        simp only [List.length_drop]
        simp only [List.length_cons] at hl ⊢
        omega
      · rw [if_neg h1] at h
        by_cases h2 : ciLeads "views/".toList (c :: cs) = true
        · rw [if_pos h2] at h
          have hl := ciLeads_length _ _ h2
          cases h
          simp only [List.length_drop]
          simp only [List.length_cons] at hl ⊢
          omega
        · rw [if_neg h2] at h
          by_cases h3 : ciLeads "screens/".toList (c :: cs) = true
          · rw [if_pos h3] at h
            have hl := ciLeads_length _ _ h3
            cases h
            simp only [List.length_drop]
            simp only [List.length_cons] at hl ⊢
            omega
          · rw [if_neg h3] at h
            have := ih h
            simp only [List.length_cons]
            omega

/-- Claim C4: with no router file present, the route for
src/pages/users/[id].vue under source root src/ is inferred from the
relative path as /users/:id: extension stripped, leading pages segment
stripped, lower-cased, bracketed parameter converted. -/
theorem c4_route_inference_example :
    FrontendContext.getRouteForVueFile none "" "src/" "src/pages/users/[id].vue" =
        "/users/:id" ∧
      FrontendContext.inferRouteFromPath "src/" "src/pages/users/[id].vue" =
        "/users/:id" := by
  constructor <;> decide

/-- Claim C5: with a router file containing a dashboard path entry whose
component reference is Dashboard, the route for Dashboard.vue is
/dashboard, produced by the router-file stage itself; path inference
would have produced a different route, so no fallback occurred. -/
theorem c5_router_lookup_example :
    FrontendContext.extractRouteFromRouter (some dashboardRouter) "components/Dashboard"
        "src/components/Dashboard.vue" = some "/dashboard" ∧
      FrontendContext.getRouteForVueFile (some dashboardRouter) "components/Dashboard"
        "src" "src/components/Dashboard.vue" = "/dashboard" ∧
      FrontendContext.inferRouteFromPath "src" "src/components/Dashboard.vue" ≠
        "/dashboard" := by
  refine ⟨by decide, by decide, by decide⟩

theorem isLikelyEFModel_iff (filePath content : String) :
    BackendContext.isLikelyEFModel filePath content = true ↔
      (containsSubstr content "[Key]" = true ∨
       containsSubstr content "[Required]" = true ∨
       containsSubstr content "[ForeignKey" = true ∨
       containsSubstr content "[Table" = true ∨
       containsSubstr content "[Column" = true ∨
       (containsSubstr content "public virtual" = true ∧
         (containsSubstr content "ICollection<" = true ∨
          containsSubstr content "List<" = true)) ∨
       containsSubstr content "public int Id \x7b get; set; \x7d" = true ∨
       containsSubstr content "public Guid Id \x7b get; set; \x7d" = true ∨
       (containsSubstr content "DbSet<" = true ∧
         containsSubstr content "Context" = true) ∨
       containsSubstr filePath "Models" = true ∨
       containsSubstr filePath "Entities" = true ∨
       containsSubstr filePath "Domain" = true) := by
  simp only [BackendContext.isLikelyEFModel, Bool.or_eq_true, Bool.and_eq_true]
  tauto

/-- Claim C3: the classifier returns true exactly when one of the listed
text or path conditions holds; in particular a navigation-property file
is a model whatever its path, and a path containing Entities forces a
positive answer whatever the text. -/
theorem c3_classifier_contract :
    (∀ filePath content, BackendContext.isLikelyEFModel filePath content = true ↔
      (containsSubstr content "[Key]" = true ∨
       containsSubstr content "[Required]" = true ∨
       containsSubstr content "[ForeignKey" = true ∨
       containsSubstr content "[Table" = true ∨
       containsSubstr content "[Column" = true ∨
       (containsSubstr content "public virtual" = true ∧
         (containsSubstr content "ICollection<" = true ∨
          containsSubstr content "List<" = true)) ∨
       containsSubstr content "public int Id \x7b get; set; \x7d" = true ∨
       containsSubstr content "public Guid Id \x7b get; set; \x7d" = true ∨
       (containsSubstr content "DbSet<" = true ∧
         containsSubstr content "Context" = true) ∨
       containsSubstr filePath "Models" = true ∨
       containsSubstr filePath "Entities" = true ∨
       containsSubstr filePath "Domain" = true)) ∧
    (∀ filePath, BackendContext.isLikelyEFModel filePath
        "public virtual ICollection<Order> Orders \x7b get; set; \x7d" = true) ∧
    (∀ filePath content, containsSubstr filePath "Entities" = true →
        BackendContext.isLikelyEFModel filePath content = true) := by
  refine ⟨isLikelyEFModel_iff, fun filePath => ?_, fun filePath content h => ?_⟩
  · exact (isLikelyEFModel_iff filePath _).mpr (by tauto)
  · exact (isLikelyEFModel_iff filePath content).mpr (by tauto)

/-- Witness for claim C3 at a concrete path and text. -/
theorem c3_witness :
    BackendContext.isLikelyEFModel "src/Entities/Foo.cs" "class Foo" = true :=
  (c3_classifier_contract.2.2) "src/Entities/Foo.cs" "class Foo" (by decide)

/-- Claim C8 counterexample: the relative path src/pages/users does not
begin with pages/, views/ or screens/, yet the stripping step does not
leave it unchanged: the folder regular expression is unanchored, so
everything up to and including the inner pages/ occurrence is removed. -/
theorem c8_counterexample :
    FrontendContext.stripPagesSegment ("src/pages/users").toList = ("users").toList ∧
      ciLeads "pages/".toList ("src/pages/users").toList = false ∧
      ciLeads "views/".toList ("src/pages/users").toList = false ∧
      ciLeads "screens/".toList ("src/pages/users").toList = false ∧
      FrontendContext.stripPagesSegment ("src/pages/users").toList ≠
        ("src/pages/users").toList := by
  decide

/-- Claim C8 as amended: the stripping step leaves a relative path
unchanged exactly when pages/, views/ and screens/ occur nowhere in it
(case-insensitively); an occurrence anywhere, not merely at the start,
removes the prefix up to and including the first occurrence. -/
theorem c8_stripping_unchanged_iff (l : List Char) :
    FrontendContext.stripPagesSegment l = l ↔
      FrontendContext.hasSegKeyword l = false := by
  constructor
  · intro h
    by_contra hne
    cases hrest : FrontendContext.findSeg l with
    | none => exact hne (by simp [FrontendContext.hasSegKeyword, hrest])
    | some rest =>
        have hlen := findSeg_length l rest hrest
        have hstrip : FrontendContext.stripPagesSegment l =
            rest.takeWhile (fun c => !(c == '\n' || c == Char.ofNat 13)) := by
          simp [FrontendContext.stripPagesSegment, hrest]
        rw [hstrip] at h
        have h1 : (rest.takeWhile (fun c => !(c == '\n' || c == Char.ofNat 13))).length ≤
            rest.length := (List.takeWhile_sublist _).length_le
        have h2 := congrArg List.length h
        omega
  · intro h
    cases heq : FrontendContext.findSeg l with
    | none => simp [FrontendContext.stripPagesSegment, heq]
    | some rest =>
        rw [show FrontendContext.hasSegKeyword l = (FrontendContext.findSeg l).isSome
          from rfl, heq] at h
        simp at h

/-- Claim C7 counterexample: two files that both resolve to the root
route receive different output filenames, taken from their own base
names, so the frontend filename is not a function of the route alone. -/
theorem c7_counterexample :
    FrontendContext.generateOutputFilename "src/Home.vue" "/" = "home.vue.txt" ∧
      FrontendContext.generateOutputFilename "src/App.vue" "/" = "app.vue.txt" ∧
      FrontendContext.generateOutputFilename "src/Home.vue" "/" ≠
        FrontendContext.generateOutputFilename "src/App.vue" "/" := by
  decide

/-- Claim C7 as amended: the backend output filename is a function of
the model name alone; the frontend output filename is a function of the
route alone whenever the kebab-cased route string is non-empty (the
empty case falls back to the base name of the file, see claim C10); and
the route /users/:id yields the base filename users-id. -/
theorem c7_filename_determinism (f1 f2 route m : String)
    (h : FrontendContext.kebabRoute route ≠ []) :
    FrontendContext.generateOutputFilename f1 route =
        FrontendContext.generateOutputFilename f2 route ∧
      BackendContext.generateOutputFilename f1 m =
        BackendContext.generateOutputFilename f2 m ∧
      FrontendContext.generateOutputFilename f1 "/users/:id" = "users-id.vue.txt" := by
  refine ⟨?_, rfl, rfl⟩
  have hE : (FrontendContext.kebabRoute route).isEmpty = false := by
    cases hk : FrontendContext.kebabRoute route with
    | nil => exact absurd hk h
    | cons a as => rfl
  simp [FrontendContext.generateOutputFilename, hE]

/-- Witness for claim C7 at concrete inputs. -/
theorem c7_witness :
    FrontendContext.kebabRoute "/users/:id" ≠ [] ∧
      (FrontendContext.generateOutputFilename "a/Home.vue" "/users/:id" =
          FrontendContext.generateOutputFilename "b/Detail.vue" "/users/:id" ∧
        BackendContext.generateOutputFilename "a/Home.cs" "OrderItem" =
          BackendContext.generateOutputFilename "b/X.cs" "OrderItem" ∧
        FrontendContext.generateOutputFilename "a/Home.vue" "/users/:id" =
          "users-id.vue.txt") :=
  ⟨by decide,
    c7_filename_determinism "a/Home.vue" "b/Detail.vue" "/users/:id" "OrderItem" (by decide)⟩

theorem basenameExt_toList_ne_nil (p ext : String)
    (h : lastSegment p.toList ≠ []) : (basenameExt p ext).toList ≠ [] := by
  unfold basenameExt
  split
  case isTrue hcond =>
    obtain ⟨h1, h2, h3⟩ := hcond
    have hs : ext.toList <:+ lastSegment p.toList :=
      List.isSuffixOf_iff_suffix.mp h3
    have hle : ext.toList.length ≤ (lastSegment p.toList).length := hs.length_le
    have hne : ext.toList.length ≠ (lastSegment p.toList).length := by
      intro hl
      exact h2 (hs.eq_of_length hl)
    show (lastSegment p.toList).take _ ≠ []
    rw [Ne, List.take_eq_nil_iff]
    push_neg
    exact ⟨by omega, h⟩
  case isFalse hcond =>
    exact h

theorem mk_append_vue_txt_ne (base : List Char) (hb : base ≠ []) :
    String.mk base ++ ".vue.txt" ≠ ".vue.txt" := by
  intro heq
  have h2 := congrArg (fun s => s.toList.length) heq
  simp only [String.toList] at h2
  rw [String.data_append] at h2
  simp only [List.length_append] at h2
  have hb2 : base.length ≠ 0 := fun hz => hb (List.length_eq_zero.mp hz)
  have e1 : (String.mk base).data.length = base.length := rfl
  rw [e1] at h2
  have e2 : (".vue.txt" : String).data.length = 8 := rfl
  omega

/-- Claim C10: when the resolved route is the bare root route, the
kebab-cased route string is empty and the frontend output filename falls
back to the lower-cased base name of the Vue file itself; and for any
file whose path ends in a non-empty name, the generated filename is
never the bare suffix alone. -/
theorem c10_empty_kebab_fallback (vueFilePath route : String)
    (hseg : lastSegment vueFilePath.toList ≠ []) :
    (route = "/" →
      FrontendContext.generateOutputFilename vueFilePath route =
        String.mk ((basenameExt vueFilePath ".vue").toList.map Char.toLower) ++
          ".vue.txt") ∧
    FrontendContext.generateOutputFilename vueFilePath route ≠ ".vue.txt" := by
  constructor
  · intro hr
    subst hr
    rfl
  · show String.mk
        (if (FrontendContext.kebabRoute route).isEmpty then
          (basenameExt vueFilePath ".vue").toList.map Char.toLower
        else FrontendContext.kebabRoute route) ++ ".vue.txt" ≠ ".vue.txt"
    apply mk_append_vue_txt_ne
    by_cases hE : (FrontendContext.kebabRoute route).isEmpty = true
    · rw [if_pos hE]
      intro hmap
      exact basenameExt_toList_ne_nil vueFilePath ".vue" hseg (List.map_eq_nil_iff.mp hmap)
    · rw [if_neg hE]
      intro hk
      rw [hk] at hE
      exact hE rfl

/-- Witness for claim C10 at a concrete file and route. -/
theorem c10_witness :
    lastSegment ("src/Home.vue" : String).toList ≠ [] ∧
      (("/" : String) = "/" →
        FrontendContext.generateOutputFilename "src/Home.vue" "/" =
          String.mk ((basenameExt "src/Home.vue" ".vue").toList.map Char.toLower) ++
            ".vue.txt") ∧
      FrontendContext.generateOutputFilename "src/Home.vue" "/" ≠ ".vue.txt" :=
  ⟨by decide, c10_empty_kebab_fallback "src/Home.vue" "/" (by decide)⟩

/-- Claim C9: invoking either generator on a missing source path fails
before any traversal with an error, the CLI action exits with code 1,
and the output state is left entirely unchanged, so no context file is
written. -/
theorem c9_missing_source_fatal (routerContent : Option String)
    (relToRouter : String → String) (root : String) (σ : String → Option String) :
    (∃ msg, FrontendContext.generateVueContext none routerContent relToRouter root σ =
        Except.error msg) ∧
      FrontendContext.cliGenerateFrontendContext none routerContent relToRouter root σ =
        (1, σ) ∧
      (∃ msg, BackendContext.generateEFModelContext none root σ = Except.error msg) ∧
      BackendContext.cliGenerateBackendContext none root σ = (1, σ) :=
  ⟨⟨_, rfl⟩, rfl, ⟨_, rfl⟩, rfl⟩

theorem splitLines_ne_nil (l : List Char) : splitLines l ≠ [] := by
  cases l with
  | nil => simp [splitLines]
  | cons c rest =>
      rw [splitLines]
      split
      · exact List.cons_ne_nil _ _
      · split
        · exact List.cons_ne_nil _ _
        · exact List.cons_ne_nil _ _

theorem splitLines_newline_cons (l : List Char) :
    splitLines ('\n' :: l) = [] :: splitLines l := by
  rw [splitLines]
  simp

theorem splitLines_append_newline (xs l : List Char) (h : ∀ c ∈ xs, c ≠ '\n') :
    splitLines (xs ++ '\n' :: l) = xs :: splitLines l := by
  induction xs with
  | nil =>
      simp only [List.nil_append]
      exact splitLines_newline_cons l
  | cons c cs ih =>
      have hc : c ≠ '\n' := h c (List.mem_cons_self c cs)
      have hcs : ∀ a ∈ cs, a ≠ '\n' := fun a ha => h a (List.mem_cons_of_mem c ha)
      simp only [List.cons_append]
      rw [splitLines, if_neg hc, ih hcs]

theorem no_newline_append (a b : List Char) (ha : ∀ c ∈ a, c ≠ '\n')
    (hb : ∀ c ∈ b, c ≠ '\n') : ∀ c ∈ a ++ b, c ≠ '\n' := by
  intro c hc
  rcases List.mem_append.mp hc with h | h
  exacts [ha c h, hb c h]

/-- Claim C6 counterexample: for the concrete model file User.cs with
class name User, the second line of the backend artifact is not the bare
model-name line: the source appends a parenthesized Entity Framework tag
after the name. -/
theorem c6_counterexample :
    (splitLines (BackendContext.modelArtifact "User.cs" "User" "class User").toList)[1]? =
        some ("// MODEL: User (Entity Framework)").toList ∧
      ("// MODEL: User (Entity Framework)").toList ≠ ("// MODEL: User").toList := by
  decide

/-- Claim C6 as amended: when the relative path and the route or model
name contain no newline, every artifact splits into exactly the path
comment line, then the route comment line (frontend) or the model
comment line carrying the name followed by the Entity Framework tag
(backend), then one empty line, then precisely the lines of the
unmodified source text. -/
theorem c6_header_format (rel route mname content : String)
    (h1 : ∀ c ∈ rel.toList, c ≠ '\n') (h2 : ∀ c ∈ route.toList, c ≠ '\n')
    (h3 : ∀ c ∈ mname.toList, c ≠ '\n') :
    splitLines (FrontendContext.vueArtifact rel route content).toList =
        ("// FILE: " ++ rel).toList :: ("// ROUTE: " ++ route).toList ::
          [] :: splitLines content.toList ∧
      splitLines (BackendContext.modelArtifact rel mname content).toList =
        ("// FILE: " ++ rel).toList ::
          ("// MODEL: " ++ mname ++ " (Entity Framework)").toList ::
          [] :: splitLines content.toList := by
  have hF : ∀ c ∈ ("// FILE: " ++ rel).toList, c ≠ '\n' := by
    rw [show ("// FILE: " ++ rel).toList = ("// FILE: ").toList ++ rel.toList from rfl]
    exact no_newline_append _ _ (by decide) h1
  have hR : ∀ c ∈ ("// ROUTE: " ++ route).toList, c ≠ '\n' := by
    rw [show ("// ROUTE: " ++ route).toList = ("// ROUTE: ").toList ++ route.toList from rfl]
    exact no_newline_append _ _ (by decide) h2
  have hM : ∀ c ∈ ("// MODEL: " ++ mname ++ " (Entity Framework)").toList, c ≠ '\n' := by
    rw [show ("// MODEL: " ++ mname ++ " (Entity Framework)").toList =
      ("// MODEL: ").toList ++ (mname.toList ++ (" (Entity Framework)").toList) from rfl]
    exact no_newline_append _ _ (by decide)
      (no_newline_append _ _ h3 (by decide))
  constructor
  · have eV : (FrontendContext.vueArtifact rel route content).toList =
        ("// FILE: " ++ rel).toList ++ '\n' ::
          (("// ROUTE: " ++ route).toList ++ '\n' :: '\n' :: content.toList) := by
      simp only [FrontendContext.vueArtifact, FrontendContext.vueHeaderFor, String.toList,
        String.data_append, List.append_assoc, List.cons_append]
      rfl
    rw [eV, splitLines_append_newline _ _ hF, splitLines_append_newline _ _ hR,
      splitLines_newline_cons]
  · have eB : (BackendContext.modelArtifact rel mname content).toList =
        ("// FILE: " ++ rel).toList ++ '\n' ::
          (("// MODEL: " ++ mname ++ " (Entity Framework)").toList ++
            '\n' :: '\n' :: content.toList) := by
      simp only [BackendContext.modelArtifact, BackendContext.modelHeaderFor, String.toList,
        String.data_append, List.append_assoc, List.cons_append]
      rfl
    rw [eB, splitLines_append_newline _ _ hF, splitLines_append_newline _ _ hM,
      splitLines_newline_cons]

/-- Witness for claim C6 at concrete header fields and content. -/
theorem c6_witness :
    splitLines (FrontendContext.vueArtifact "pages/Home.vue" "/" "<template>").toList =
        ("// FILE: " ++ "pages/Home.vue").toList :: ("// ROUTE: " ++ "/").toList ::
          [] :: splitLines ("<template>" : String).toList ∧
      splitLines (BackendContext.modelArtifact "pages/Home.vue" "User" "<template>").toList =
        ("// FILE: " ++ "pages/Home.vue").toList ::
          ("// MODEL: " ++ "User" ++ " (Entity Framework)").toList ::
          [] :: splitLines ("<template>" : String).toList :=
  c6_header_format "pages/Home.vue" "/" "User" "<template>"
    (by decide) (by decide) (by decide)

theorem writeAll_apply (ws : List (String × String)) (σ : String → Option String)
    (k : String) :
    writeAll ws σ k = match lookupLast ws k with
      | some v => some v
      | none => σ k := by
  induction ws generalizing σ with
  | nil => rfl
  | cons w rest ih =>
      show writeAll rest (updateState σ w) k = _
      rw [ih]
      rw [lookupLast]
      cases lookupLast rest k with
      | some v => rfl
      | none =>
          by_cases hk : k = w.1 <;> simp [updateState, hk]

theorem writeAll_idem (ws : List (String × String)) (σ : String → Option String) :
    writeAll ws (writeAll ws σ) = writeAll ws σ := by
  funext k
  rw [writeAll_apply, writeAll_apply]
  cases lookupLast ws k <;> rfl

/-- Claim C1: every artifact written for a processed file is the header
block followed by the file content byte for byte; the write lists of two
runs over the same tree and router state are definitionally the same
function of the inputs, and re-applying them to the state produced by
the first run leaves that state unchanged, each artifact being
overwritten with identical content. -/
theorem c1_emitter_round_trip_idempotence (routerContent : Option String)
    (relToRouter : String → String) (root : String) (t : List (String × FS))
    (σ : String → Option String) (p q : List String) (c d : String)
    (hp : p ∈ findVueFiles t) (hc : readFile t p = some c)
    (hq : q ∈ BackendContext.modelFilesOf root t) (hd : readFile t q = some d) :
    (∃ rel route, (FrontendContext.processVueFile routerContent relToRouter root t p).2 =
        FrontendContext.vueHeaderFor rel route ++ c) ∧
      FrontendContext.processVueFile routerContent relToRouter root t p ∈
        FrontendContext.vueWrites routerContent relToRouter root t ∧
      (∃ rel mname, (BackendContext.processModelFile root t q).2 =
        BackendContext.modelHeaderFor rel mname ++ d) ∧
      BackendContext.processModelFile root t q ∈ BackendContext.modelWrites root t ∧
      FrontendContext.generateVueContext (some t) routerContent relToRouter root
          (writeAll (FrontendContext.vueWrites routerContent relToRouter root t) σ) =
        Except.ok (writeAll (FrontendContext.vueWrites routerContent relToRouter root t) σ,
          (findVueFiles t).length) ∧
      BackendContext.generateEFModelContext (some t) root
          (writeAll (BackendContext.modelWrites root t) σ) =
        Except.ok (writeAll (BackendContext.modelWrites root t) σ,
          (BackendContext.modelFilesOf root t).length) := by
  have h1 : ∃ rel route,
      (FrontendContext.processVueFile routerContent relToRouter root t p).2 =
        FrontendContext.vueHeaderFor rel route ++ c := by
    simp only [FrontendContext.processVueFile, FrontendContext.vueArtifact, hc,
      Option.getD_some]
    exact ⟨_, _, rfl⟩
  have h2 : ∃ rel mname, (BackendContext.processModelFile root t q).2 =
      BackendContext.modelHeaderFor rel mname ++ d := by
    simp only [BackendContext.processModelFile, BackendContext.modelArtifact, hd,
      Option.getD_some]
    exact ⟨_, _, rfl⟩
  refine ⟨h1, List.mem_map_of_mem _ hp, h2, List.mem_map_of_mem _ hq, ?_, ?_⟩
  · show Except.ok (writeAll _ (writeAll _ σ), _) = _
    rw [writeAll_idem]
  · show Except.ok (writeAll _ (writeAll _ σ), _) = _
    rw [writeAll_idem]

/-- Witness for claim C1 at a concrete tree, file paths and contents. -/
theorem c1_witness :
    (["App.vue"] ∈ findVueFiles c1SampleTree ∧
      readFile c1SampleTree ["App.vue"] = some "<template>" ∧
      ["User.cs"] ∈ BackendContext.modelFilesOf "src" c1SampleTree ∧
      readFile c1SampleTree ["User.cs"] = some "public class User [Key]") ∧
    ((∃ rel route,
        (FrontendContext.processVueFile none (fun r => r) "src" c1SampleTree
          ["App.vue"]).2 = FrontendContext.vueHeaderFor rel route ++ "<template>") ∧
      FrontendContext.processVueFile none (fun r => r) "src" c1SampleTree ["App.vue"] ∈
        FrontendContext.vueWrites none (fun r => r) "src" c1SampleTree ∧
      (∃ rel mname, (BackendContext.processModelFile "src" c1SampleTree ["User.cs"]).2 =
        BackendContext.modelHeaderFor rel mname ++ "public class User [Key]") ∧
      BackendContext.processModelFile "src" c1SampleTree ["User.cs"] ∈
        BackendContext.modelWrites "src" c1SampleTree ∧
      FrontendContext.generateVueContext (some c1SampleTree) none (fun r => r) "src"
          (writeAll (FrontendContext.vueWrites none (fun r => r) "src" c1SampleTree)
            (fun _ => none)) =
        Except.ok
          (writeAll (FrontendContext.vueWrites none (fun r => r) "src" c1SampleTree)
            (fun _ => none), (findVueFiles c1SampleTree).length) ∧
      BackendContext.generateEFModelContext (some c1SampleTree) "src"
          (writeAll (BackendContext.modelWrites "src" c1SampleTree) (fun _ => none)) =
        Except.ok (writeAll (BackendContext.modelWrites "src" c1SampleTree)
          (fun _ => none), (BackendContext.modelFilesOf "src" c1SampleTree).length)) := by
  have hp : ["App.vue"] ∈ findVueFiles c1SampleTree := by
    simp +decide [findVueFiles, findFilesSuffix, c1SampleTree]
  have hc : readFile c1SampleTree ["App.vue"] = some "<template>" := by decide
  have hq : ["User.cs"] ∈ BackendContext.modelFilesOf "src" c1SampleTree := by
    simp +decide [BackendContext.modelFilesOf, findCSharpFiles, findFilesSuffix,
      c1SampleTree]
  have hd : readFile c1SampleTree ["User.cs"] = some "public class User [Key]" := by
    decide
  exact ⟨⟨hp, hc, hq, hd⟩, c1_emitter_round_trip_idempotence none (fun r => r) "src"
    c1SampleTree (fun _ => none) _ _ _ _ hp hc hq hd⟩

theorem findFilesSuffix_eq (suffix : String) (entries : List (String × FS))
    (pre : List String) (acc : List (List String)) :
    findFilesSuffix suffix entries pre acc = acc ++ matchingFiles suffix entries pre := by
  induction entries, pre, acc using findFilesSuffix.induct suffix with
  | case1 pre acc => simp [findFilesSuffix, matchingFiles]
  | case2 pre acc name content rest ih =>
      rw [findFilesSuffix, matchingFiles]
      by_cases hb : nameEndsWith name suffix = true
      · simp only [hb, if_true, dite_true] at ih ⊢
        rw [ih]
        simp
      · simp only [hb, if_false, dite_false, Bool.false_eq_true] at ih ⊢
        rw [ih]
        simp
  | case3 pre acc name sub rest ih1 ih2 =>
      rw [findFilesSuffix, matchingFiles]
      rw [ih2, ih1]
      simp

theorem matchingFiles_shape (suffix : String) (entries : List (String × FS))
    (pre : List String) :
    ∀ q ∈ matchingFiles suffix entries pre,
      ∃ n t2, q = pre ++ n :: t2 ∧ n ∈ entries.map Prod.fst := by
  induction entries, pre using matchingFiles.induct suffix with
  | case1 pre => intro q hq; simp [matchingFiles] at hq
  | case2 pre name content rest ih =>
      intro q hq
      rw [matchingFiles] at hq
      rcases List.mem_append.mp hq with h | h
      · have hq2 : q = pre ++ [name] := by
          by_cases hb : nameEndsWith name suffix = true
          · simpa [hb] using h
          · simp [hb] at h
        exact ⟨name, [], hq2, by simp⟩
      · obtain ⟨n, t2, hq2, hn⟩ := ih q h
        exact ⟨n, t2, hq2, by simp [hn]⟩
  | case3 pre name sub rest ih1 ih2 =>
      intro q hq
      rw [matchingFiles] at hq
      rcases List.mem_append.mp hq with h | h
      · obtain ⟨n, t2, hq2, hn⟩ := ih1 q h
        refine ⟨name, n :: t2, ?_, by simp⟩
        rw [hq2]
        simp
      · obtain ⟨n, t2, hq2, hn⟩ := ih2 q h
        exact ⟨n, t2, hq2, by simp [hn]⟩

theorem keys_all_ne (rest : List (String × FS)) (name : String)
    (hall : rest.all (fun e => e.1 != name) = true) :
    name ∉ rest.map Prod.fst := by
  intro hmem
  obtain ⟨e, he, hfst⟩ := List.mem_map.mp hmem
  have h2 := List.all_eq_true.mp hall e he
  rw [bne_iff_ne] at h2
  exact h2 hfst

theorem matchingFiles_nodup (suffix : String) (entries : List (String × FS))
    (pre : List String) :
    wfEntries entries = true → (matchingFiles suffix entries pre).Nodup := by
  induction entries, pre using matchingFiles.induct suffix with
  | case1 pre => intro _; simp [matchingFiles]
  | case2 pre name content rest ih =>
      intro hwf
      rw [wfEntries, Bool.and_eq_true] at hwf
      obtain ⟨hall, hrest⟩ := hwf
      rw [matchingFiles]
      by_cases hb : nameEndsWith name suffix = true
      · simp only [hb, if_true, List.singleton_append]
        rw [List.nodup_cons]
        refine ⟨?_, ih hrest⟩
        intro hmem
        obtain ⟨n, t2, heq, hn⟩ := matchingFiles_shape suffix rest pre _ hmem
        have h3 : ([name] : List String) = n :: t2 := List.append_cancel_left heq
        injection h3 with h4 h5
        rw [← h4] at hn
        exact keys_all_ne rest name hall hn
      · simp only [hb, if_false, Bool.false_eq_true, List.nil_append]
        exact ih hrest
  | case3 pre name sub rest ih1 ih2 =>
      intro hwf
      rw [wfEntries, Bool.and_eq_true, Bool.and_eq_true] at hwf
      obtain ⟨⟨hall, hsub⟩, hrest⟩ := hwf
      rw [matchingFiles]
      refine List.Nodup.append (ih1 hsub) (ih2 hrest) ?_
      intro q hq1 hq2
      obtain ⟨n1, t1, he1, _⟩ := matchingFiles_shape suffix sub (pre ++ [name]) q hq1
      obtain ⟨n2, t2, he2, hn2⟩ := matchingFiles_shape suffix rest pre q hq2
      rw [he1, List.append_assoc] at he2
      have h3 := List.append_cancel_left he2
      rw [List.singleton_append] at h3
      injection h3 with h4 h5
      rw [← h4] at hn2
      exact keys_all_ne rest name hall hn2

theorem isMatchingFile_weaken (suffix : String) (x : String × FS)
    (rest : List (String × FS)) (pre p : List String)
    (h : IsMatchingFile suffix rest pre p) : IsMatchingFile suffix (x :: rest) pre p := by
  cases h with
  | here _ _ name content hends hmem =>
      exact IsMatchingFile.here _ _ name content hends (List.mem_cons_of_mem _ hmem)
  | inside _ _ name sub _ hmem hsub =>
      exact IsMatchingFile.inside _ _ name sub p (List.mem_cons_of_mem _ hmem) hsub

theorem mem_matchingFiles_of_file (suffix : String) (entries : List (String × FS))
    (pre : List String) (name content : String)
    (hmem : (name, FS.file content) ∈ entries)
    (hends : nameEndsWith name suffix = true) :
    pre ++ [name] ∈ matchingFiles suffix entries pre := by
  induction entries with
  | nil => simp at hmem
  | cons x rest ih =>
      rcases List.mem_cons.mp hmem with hx | hx
      · subst hx
        rw [matchingFiles]
        apply List.mem_append_left
        simp [hends]
      · obtain ⟨xn, xe⟩ := x
        cases xe with
        | file c2 =>
            rw [matchingFiles]
            exact List.mem_append_right _ (ih hx)
        | dir sub =>
            rw [matchingFiles]
            exact List.mem_append_right _ (ih hx)

theorem mem_matchingFiles_of_dir (suffix : String) (entries : List (String × FS))
    (pre : List String) (name : String) (sub : List (String × FS)) (q : List String)
    (hmem : (name, FS.dir sub) ∈ entries)
    (hq : q ∈ matchingFiles suffix sub (pre ++ [name])) :
    q ∈ matchingFiles suffix entries pre := by
  induction entries with
  | nil => simp at hmem
  | cons x rest ih =>
      rcases List.mem_cons.mp hmem with hx | hx
      · subst hx
        rw [matchingFiles]
        exact List.mem_append_left _ hq
      · obtain ⟨xn, xe⟩ := x
        cases xe with
        | file c2 =>
            rw [matchingFiles]
            exact List.mem_append_right _ (ih hx)
        | dir sub2 =>
            rw [matchingFiles]
            exact List.mem_append_right _ (ih hx)

theorem isMatchingFile_of_mem (suffix : String) (entries : List (String × FS))
    (pre p : List String) :
    p ∈ matchingFiles suffix entries pre → IsMatchingFile suffix entries pre p := by
  induction entries, pre using matchingFiles.induct suffix with
  | case1 pre => intro hp; simp [matchingFiles] at hp
  | case2 pre name content rest ih =>
      intro hp
      rw [matchingFiles] at hp
      rcases List.mem_append.mp hp with h | h
      · by_cases hb : nameEndsWith name suffix = true
        · simp only [hb, if_true, List.mem_singleton] at h
          subst h
          exact IsMatchingFile.here _ _ name content hb (List.mem_cons_self _ _)
        · simp [hb] at h
      · exact isMatchingFile_weaken suffix _ rest pre p (ih h)
  | case3 pre name sub rest ih1 ih2 =>
      intro hp
      rw [matchingFiles] at hp
      rcases List.mem_append.mp hp with h | h
      · exact IsMatchingFile.inside _ _ name sub p (List.mem_cons_self _ _) (ih1 h)
      · exact isMatchingFile_weaken suffix _ rest pre p (ih2 h)

theorem mem_of_isMatchingFile (suffix : String) (entries : List (String × FS))
    (pre p : List String) (h : IsMatchingFile suffix entries pre p) :
    p ∈ matchingFiles suffix entries pre := by
  induction h with
  | here l pre2 name content hends hmem =>
      exact mem_matchingFiles_of_file suffix l pre2 name content hmem hends
  | inside l pre2 name sub q hmem hsub ih =>
      exact mem_matchingFiles_of_dir suffix l pre2 name sub q hmem ih

/-- Claim C2: over a well-formed directory tree, the walker output of
findVueFiles and findCSharpFiles contains a path exactly when it is a
reachable file whose name ends in the target suffix, and the output has
no duplicates, so each such file appears exactly once. -/
theorem c2_walker_complete_unique (entries : List (String × FS))
    (hwf : wfEntries entries = true) :
    (∀ p, p ∈ findVueFiles entries ↔ IsMatchingFile ".vue" entries [] p) ∧
      (findVueFiles entries).Nodup ∧
      (∀ p, p ∈ findCSharpFiles entries ↔ IsMatchingFile ".cs" entries [] p) ∧
      (findCSharpFiles entries).Nodup := by
  have e1 : findVueFiles entries = matchingFiles ".vue" entries [] := by
    rw [findVueFiles, findFilesSuffix_eq, List.nil_append]
  have e2 : findCSharpFiles entries = matchingFiles ".cs" entries [] := by
    rw [findCSharpFiles, findFilesSuffix_eq, List.nil_append]
  refine ⟨fun p => ?_, ?_, fun p => ?_, ?_⟩
  · rw [e1]
    exact ⟨isMatchingFile_of_mem _ _ _ p, mem_of_isMatchingFile _ _ _ p⟩
  · rw [e1]
    exact matchingFiles_nodup _ _ _ hwf
  · rw [e2]
    exact ⟨isMatchingFile_of_mem _ _ _ p, mem_of_isMatchingFile _ _ _ p⟩
  · rw [e2]
    exact matchingFiles_nodup _ _ _ hwf

/-- Witness for claim C2 at a concrete well-formed tree. -/
theorem c2_witness :
    wfEntries c2SampleTree = true ∧
      ((∀ p, p ∈ findVueFiles c2SampleTree ↔ IsMatchingFile ".vue" c2SampleTree [] p) ∧
        (findVueFiles c2SampleTree).Nodup ∧
        (∀ p, p ∈ findCSharpFiles c2SampleTree ↔ IsMatchingFile ".cs" c2SampleTree [] p) ∧
        (findCSharpFiles c2SampleTree).Nodup) := by
  have hwf : wfEntries c2SampleTree = true := by
    simp +decide [wfEntries, c2SampleTree]
  exact ⟨hwf, c2_walker_complete_unique c2SampleTree hwf⟩
